import Mathlib

/-!
Verification of the tile-grid geocoding and viewport-positioning core of the
nanobanana-maps repository.

The numeric model uses `ℝ` for the source's floating-point numbers, `ℕ` for
zoom levels and grid dimensions, and `ℤ` for integer tile indices.  The four
core operations are translated from `services/googleMaps.ts`
(`latLngToPreciseTileXY`, `getTilesForArea`, `preciseTileXYToLatLng`) and from
the `handlePanEnd` callback of `App.tsx`.  Tile URL construction (session
token, API key) is an external-collaborator concern and carries no geometric
information beyond the tile index, so the `url` field of a tile is omitted;
the `key` field is kept verbatim because it is part of the grid contract.
-/

/-- Pixel edge length of one square tile (`constants.ts`). -/
def TILE_SIZE : ℝ := 256

/-- Number of tiles visible in the viewport grid (`constants.ts`). -/
def VISIBLE_GRID_DIMENSION : ℕ := 3

/-- Number of tiles fetched around the center (`constants.ts`). -/
def FETCH_GRID_DIMENSION : ℕ := 5

/-- Tile-to-tile pixel stride multiplier (`constants.ts`). -/
def POSITIONING_FACTOR : ℝ := 1

/-- Lower zoom bound (`constants.ts`). -/
def MIN_ZOOM : ℕ := 1

/-- Upper zoom bound (`constants.ts`). -/
def MAX_ZOOM : ℕ := 22

/-- One fetched map tile: integer tile index, position in the fetched grid,
and the request key `"{zoom}-{tileX}-{tileY}"` built by `getTilesForArea`. -/
structure MapTile where
  tileX : ℤ
  tileY : ℤ
  gridX : ℕ
  gridY : ℕ
  key : String
  deriving DecidableEq

/-- Result of `getTilesForArea`: the tile list and the pixel offset that
re-centers the fetched grid under the viewport. -/
structure MapData where
  tiles : List MapTile
  offset : ℝ × ℝ

/-- Forward web-Mercator projection `latLngToPreciseTileXY` from
`services/googleMaps.ts`: converts latitude and longitude to fractional
tile-space coordinates at the given zoom. -/
noncomputable def latLngToPreciseTileXY (lat lng : ℝ) (zoom : ℕ) : ℝ × ℝ :=
  let n : ℝ := 2 ^ zoom
  let latRad : ℝ := lat * Real.pi / 180
  let xtile : ℝ := n * ((lng + 180) / 360)
  let ytile : ℝ :=
    n * (1 - Real.log (Real.tan latRad + 1 / Real.cos latRad) / Real.pi) / 2
  (xtile, ytile)

/-- Inverse web-Mercator projection `preciseTileXYToLatLng` from
`services/googleMaps.ts`: converts fractional tile-space coordinates back to
`(latitude, longitude)`. -/
noncomputable def preciseTileXYToLatLng (x y : ℝ) (zoom : ℕ) : ℝ × ℝ :=
  let n : ℝ := 2 ^ zoom
  let lngDeg : ℝ := x / n * 360 - 180
  let latRad : ℝ := Real.arctan (Real.sinh (Real.pi * (1 - 2 * y / n)))
  let latDeg : ℝ := latRad * 180 / Real.pi
  (latDeg, lngDeg)

/-- Grid builder `getTilesForArea` from `services/googleMaps.ts`: builds the
`gridDimension × gridDimension` list of tiles around the center (row-major,
anchored at the floored center tile) together with the pixel offset that
places the requested center at the viewport's visual center. -/
noncomputable def getTilesForArea (lat lng : ℝ) (zoom gridDimension : ℕ) :
    MapData :=
  let preciseCenter := latLngToPreciseTileXY lat lng zoom
  let integerCenter : ℤ × ℤ := (⌊preciseCenter.1⌋, ⌊preciseCenter.2⌋)
  let halfGrid : ℕ := gridDimension / 2
  let startX : ℤ := integerCenter.1 - halfGrid
  let startY : ℤ := integerCenter.2 - halfGrid
  let tiles : List MapTile :=
    (List.range gridDimension).flatMap fun (i : ℕ) =>
      (List.range gridDimension).map fun (j : ℕ) =>
        { tileX := startX + (j : ℤ)
          tileY := startY + (i : ℤ)
          gridX := j
          gridY := i
          key := toString zoom ++ "-" ++ toString (startX + (j : ℤ)) ++ "-" ++
            toString (startY + (i : ℤ)) }
  let step : ℝ := TILE_SIZE * POSITIONING_FACTOR
  let targetPixelInGridX : ℝ := (preciseCenter.1 - (startX : ℝ)) * TILE_SIZE
  let targetPixelInGridY : ℝ := (preciseCenter.2 - (startY : ℝ)) * TILE_SIZE
  let viewportWidth : ℝ := ((VISIBLE_GRID_DIMENSION : ℝ) - 1) * step + TILE_SIZE
  let viewportHeight : ℝ := ((VISIBLE_GRID_DIMENSION : ℝ) - 1) * step + TILE_SIZE
  let viewportCenterX : ℝ := viewportWidth / 2
  let viewportCenterY : ℝ := viewportHeight / 2
  { tiles := tiles
    offset := (viewportCenterX - targetPixelInGridX,
               viewportCenterY - targetPixelInGridY) }

/-- Pan resolver `handlePanEnd` from `App.tsx`: a zero pixel delta leaves the
location unchanged (early return); otherwise the current center is converted
to tile space, shifted by `-pixelDelta / TILE_SIZE` per axis, and converted
back to `(latitude, longitude)`. -/
noncomputable def handlePanEnd (lat lng : ℝ) (zoom : ℕ) (panX panY : ℝ) :
    ℝ × ℝ :=
  open Classical in
  if panX = 0 ∧ panY = 0 then (lat, lng)
  else
    let currentTileXY := latLngToPreciseTileXY lat lng zoom
    let newTileX := currentTileXY.1 - panX / TILE_SIZE
    let newTileY := currentTileXY.2 - panY / TILE_SIZE
    preciseTileXYToLatLng newTileX newTileY zoom

/-- Decimal digit characters of a natural number, most significant first:
the specification of what core's `Nat.toDigits 10` produces. -/
def decDigits (n : ℕ) : List Char :=
  if n < 10 then [Nat.digitChar n]
  else decDigits (n / 10) ++ [Nat.digitChar (n % 10)]
  decreasing_by exact Nat.div_lt_self (by omega) (by omega)

/-- The x index of the grid's top-left tile as computed by `getTilesForArea`:
the floored fractional center minus `⌊gridDimension / 2⌋`. -/
noncomputable def tileStartX (lat lng : ℝ) (zoom gridDimension : ℕ) : ℤ :=
  ⌊(latLngToPreciseTileXY lat lng zoom).1⌋ - (gridDimension / 2 : ℕ)

/-- The y index of the grid's top-left tile as computed by `getTilesForArea`. -/
noncomputable def tileStartY (lat lng : ℝ) (zoom gridDimension : ℕ) : ℤ :=
  ⌊(latLngToPreciseTileXY lat lng zoom).2⌋ - (gridDimension / 2 : ℕ)

/-! ### Decimal string representations -/

theorem decDigits_ne_nil (n : ℕ) : decDigits n ≠ [] := by
  rw [decDigits]; split <;> simp

theorem decDigits_length_pos (n : ℕ) : 0 < (decDigits n).length :=
  List.length_pos.mpr (decDigits_ne_nil n)

theorem digitChar_ne_dash (n : ℕ) : Nat.digitChar n ≠ '-' := by
  by_cases h : n < 16
  · interval_cases n <;> decide
  · unfold Nat.digitChar
    repeat rw [if_neg (show ¬_ = _ by omega)]
    decide

theorem decDigits_of_lt (n : ℕ) (h : n < 10) :
    decDigits n = [Nat.digitChar n] := by
  rw [decDigits, if_pos h]

theorem decDigits_of_ge (n : ℕ) (h : ¬ n < 10) :
    decDigits n = decDigits (n / 10) ++ [Nat.digitChar (n % 10)] := by
  rw [decDigits, if_neg h]

theorem digitChar_inj_lt : ∀ a < 10, ∀ b < 10,
    Nat.digitChar a = Nat.digitChar b → a = b := by decide

theorem dash_not_mem_decDigits (n : ℕ) : '-' ∉ decDigits n := by
  induction n using Nat.strong_induction_on with
  | _ n ih =>
    by_cases h10 : n < 10
    · rw [decDigits, if_pos h10]
      simp only [List.mem_singleton]
      exact fun h => digitChar_ne_dash n h.symm
    · rw [decDigits, if_neg h10]
      intro hmem
      rcases List.mem_append.mp hmem with h | h
      · exact ih (n / 10) (Nat.div_lt_self (by omega) (by omega)) h
      · simp only [List.mem_singleton] at h
        exact digitChar_ne_dash _ h.symm

theorem decDigits_length_of_lt (n : ℕ) (h : n < 10) :
    (decDigits n).length = 1 := by
  rw [decDigits, if_pos h]; rfl

theorem decDigits_length_of_ge (n : ℕ) (h : ¬ n < 10) :
    2 ≤ (decDigits n).length := by
  rw [decDigits, if_neg h]
  have := decDigits_length_pos (n / 10)
  simp only [List.length_append, List.length_singleton]
  omega

theorem decDigits_inj : ∀ a b : ℕ, decDigits a = decDigits b → a = b := by
  intro a
  induction a using Nat.strong_induction_on with
  | _ a ih =>
    intro b h
    by_cases ha : a < 10 <;> by_cases hb : b < 10
    · rw [decDigits_of_lt a ha, decDigits_of_lt b hb] at h
      simp only [List.cons.injEq, and_true] at h
      exact digitChar_inj_lt a ha b hb h
    · have := congrArg List.length h
      rw [decDigits_length_of_lt a ha] at this
      have h2 := decDigits_length_of_ge b hb
      omega
    · have := congrArg List.length h
      rw [decDigits_length_of_lt b hb] at this
      have h2 := decDigits_length_of_ge a ha
      omega
    · rw [decDigits_of_ge a ha, decDigits_of_ge b hb] at h
      obtain ⟨h1, h2⟩ := List.append_inj' h (by simp)
      have hdiv : a / 10 = b / 10 :=
        ih (a / 10) (Nat.div_lt_self (by omega) (by omega)) _ h1
      simp only [List.cons.injEq, and_true] at h2
      have hmod : a % 10 = b % 10 :=
        digitChar_inj_lt _ (Nat.mod_lt a (by omega)) _ (Nat.mod_lt b (by omega)) h2
      omega

theorem toDigitsCore_eq_decDigits (fuel : ℕ) : ∀ (n : ℕ) (ds : List Char),
    n < fuel → Nat.toDigitsCore 10 fuel n ds = decDigits n ++ ds := by
  induction fuel with
  | zero => intro n ds h; omega
  | succ f ih =>
    intro n ds h
    simp only [Nat.toDigitsCore]
    by_cases h10 : n < 10
    · have hd : n / 10 = 0 := Nat.div_eq_of_lt h10
      rw [if_pos hd, decDigits, if_pos h10, Nat.mod_eq_of_lt h10,
        List.singleton_append]
    · have hd : ¬ n / 10 = 0 := by omega
      have hlt : n / 10 < f := by
        have := Nat.div_lt_self (show 0 < n by omega) (show 1 < 10 by omega)
        omega
      rw [if_neg hd, ih (n / 10) _ hlt]
      conv_rhs => rw [decDigits, if_neg h10]
      simp [List.append_assoc]

theorem natRepr_data (n : ℕ) : (Nat.repr n).data = decDigits n := by
  show (Nat.toDigitsCore 10 (n + 1) n []).asString.data = decDigits n
  rw [toDigitsCore_eq_decDigits (n + 1) n [] (Nat.lt_succ_self n),
    List.append_nil]
  rfl

theorem intRepr_data_ofNat (m : ℕ) :
    (Int.repr (Int.ofNat m)).data = decDigits m := natRepr_data m

theorem intRepr_data_negSucc (m : ℕ) :
    (Int.repr (Int.negSucc m)).data = '-' :: decDigits (m + 1) := by
  show (("-" ++ Nat.repr (m + 1) : String)).data = '-' :: decDigits (m + 1)
  rw [String.data_append, natRepr_data]
  rfl

theorem intRepr_data_inj : ∀ {x y : ℤ},
    (Int.repr x).data = (Int.repr y).data → x = y := by
  intro x y h
  cases x with
  | ofNat m =>
    cases y with
    | ofNat k =>
      rw [intRepr_data_ofNat, intRepr_data_ofNat] at h
      exact congrArg Int.ofNat (decDigits_inj m k h)
    | negSucc k =>
      rw [intRepr_data_ofNat, intRepr_data_negSucc] at h
      exact absurd (h ▸ List.mem_cons_self '-' _) (dash_not_mem_decDigits m)
  | negSucc m =>
    cases y with
    | ofNat k =>
      rw [intRepr_data_ofNat, intRepr_data_negSucc] at h
      exact absurd (h ▸ List.mem_cons_self '-' _) (dash_not_mem_decDigits k)
    | negSucc k =>
      rw [intRepr_data_negSucc, intRepr_data_negSucc] at h
      simp only [List.cons.injEq, true_and] at h
      have := decDigits_inj _ _ h
      exact congrArg Int.negSucc (by omega)

theorem splitAtDash : ∀ (as cs bs ds : List Char), '-' ∉ as → '-' ∉ cs →
    as ++ '-' :: bs = cs ++ '-' :: ds → as = cs ∧ bs = ds := by
  intro as
  induction as with
  | nil =>
    intro cs bs ds _ hc h
    cases cs with
    | nil => simpa using h
    | cons c cs' =>
      simp only [List.nil_append, List.cons_append, List.cons.injEq] at h
      exact absurd (h.1 ▸ List.mem_cons_self c cs') hc
  | cons a as' ih =>
    intro cs bs ds ha hc h
    cases cs with
    | nil =>
      simp only [List.nil_append, List.cons_append, List.cons.injEq] at h
      exact absurd (h.1 ▸ List.mem_cons_self a as') ha
    | cons c cs' =>
      simp only [List.cons_append, List.cons.injEq] at h
      obtain ⟨hac, h'⟩ := h
      have hrec := ih cs' bs ds (fun hm => ha (List.mem_cons_of_mem _ hm))
        (fun hm => hc (List.mem_cons_of_mem _ hm)) h'
      exact ⟨by rw [hac, hrec.1], hrec.2⟩

theorem toString_int_data (x : ℤ) : (toString x).data = (Int.repr x).data := rfl

theorem dash_data : ("-" : String).data = ['-'] := rfl

theorem reprPair_inj (x₁ y₁ x₂ y₂ : ℤ)
    (h : (Int.repr x₁).data ++ '-' :: (Int.repr y₁).data
       = (Int.repr x₂).data ++ '-' :: (Int.repr y₂).data) :
    x₁ = x₂ ∧ y₁ = y₂ := by
  cases x₁ with
  | ofNat m₁ =>
    cases x₂ with
    | ofNat m₂ =>
      rw [intRepr_data_ofNat, intRepr_data_ofNat] at h
      obtain ⟨h1, h2⟩ := splitAtDash _ _ _ _ (dash_not_mem_decDigits m₁)
        (dash_not_mem_decDigits m₂) h
      exact ⟨congrArg Int.ofNat (decDigits_inj _ _ h1), intRepr_data_inj h2⟩
    | negSucc m₂ =>
      rw [intRepr_data_ofNat, intRepr_data_negSucc] at h
      obtain ⟨c, cs, hc⟩ := List.exists_cons_of_ne_nil (decDigits_ne_nil m₁)
      rw [hc] at h
      simp only [List.cons_append, List.cons.injEq] at h
      have : '-' ∈ decDigits m₁ := by
        rw [hc, h.1]
        exact List.mem_cons_self _ _
      exact absurd this (dash_not_mem_decDigits m₁)
  | negSucc m₁ =>
    cases x₂ with
    | ofNat m₂ =>
      rw [intRepr_data_negSucc, intRepr_data_ofNat] at h
      obtain ⟨c, cs, hc⟩ := List.exists_cons_of_ne_nil (decDigits_ne_nil m₂)
      rw [hc] at h
      simp only [List.cons_append, List.cons.injEq] at h
      have : '-' ∈ decDigits m₂ := by
        rw [hc, ← h.1]
        exact List.mem_cons_self _ _
      exact absurd this (dash_not_mem_decDigits m₂)
    | negSucc m₂ =>
      rw [intRepr_data_negSucc, intRepr_data_negSucc] at h
      simp only [List.cons_append, List.cons.injEq, true_and] at h
      obtain ⟨h1, h2⟩ := splitAtDash _ _ _ _ (dash_not_mem_decDigits _)
        (dash_not_mem_decDigits _) h
      have := decDigits_inj _ _ h1
      exact ⟨congrArg Int.negSucc (by omega), intRepr_data_inj h2⟩

theorem tileKey_inj {z : ℕ} {x₁ y₁ x₂ y₂ : ℤ}
    (h : toString z ++ "-" ++ toString x₁ ++ "-" ++ toString y₁
       = toString z ++ "-" ++ toString x₂ ++ "-" ++ toString y₂) :
    x₁ = x₂ ∧ y₁ = y₂ := by
  have hd := congrArg String.data h
  simp only [String.data_append, dash_data, toString_int_data,
    List.append_assoc, List.singleton_append] at hd
  have hd' := List.append_cancel_left hd
  injection hd' with h1 h2
  exact reprPair_inj x₁ y₁ x₂ y₂ h2

/-! ### Grid structure -/

theorem flatMap_range_map {α : Type} (K : ℕ) (f : ℕ → ℕ → α) : ∀ M : ℕ,
    ((List.range M).flatMap fun i => (List.range K).map (f i))
      = (List.range (M * K)).map fun p => f (p / K) (p % K) := by
  intro M
  rcases Nat.eq_zero_or_pos K with hK | hK
  · subst hK
    simp
  · induction M with
    | zero => simp
    | succ m ih =>
      rw [List.range_succ, List.flatMap_append, ih, Nat.succ_mul,
        List.range_add, List.map_append, List.map_map]
      congr 1
      · simp only [List.flatMap_cons, List.flatMap_nil, List.append_nil]
        apply List.map_congr_left
        intro j hj
        have hj' : j < K := List.mem_range.mp hj
        have h1 : (m * K + j) / K = m := by
          rw [Nat.mul_comm m K, Nat.mul_add_div hK, Nat.div_eq_of_lt hj',
            Nat.add_zero]
        have h2 : (m * K + j) % K = j := by
          rw [Nat.mul_comm m K, Nat.mul_add_mod, Nat.mod_eq_of_lt hj']
        simp only [Function.comp_apply, h1, h2]

theorem tiles_eq (lat lng : ℝ) (zoom N : ℕ) :
    (getTilesForArea lat lng zoom N).tiles
      = (List.range (N * N)).map fun p =>
          { tileX := tileStartX lat lng zoom N + ((p % N : ℕ) : ℤ)
            tileY := tileStartY lat lng zoom N + ((p / N : ℕ) : ℤ)
            gridX := p % N
            gridY := p / N
            key := toString zoom ++ "-" ++
              toString (tileStartX lat lng zoom N + ((p % N : ℕ) : ℤ)) ++ "-" ++
              toString (tileStartY lat lng zoom N + ((p / N : ℕ) : ℤ)) } := by
  simp only [getTilesForArea]
  exact flatMap_range_map N _ N

/-! ### Projection round trips -/

theorem latLng_roundtrip (lat lng : ℝ) (zoom : ℕ) (hlat : |lat| ≤ 85) :
    preciseTileXYToLatLng (latLngToPreciseTileXY lat lng zoom).1
      (latLngToPreciseTileXY lat lng zoom).2 zoom = (lat, lng) := by
  have hn : (2:ℝ) ^ zoom ≠ 0 := by positivity
  have hpi : (0:ℝ) < Real.pi := Real.pi_pos
  simp only [latLngToPreciseTileXY, preciseTileXYToLatLng, Prod.mk.injEq]
  set θ : ℝ := lat * Real.pi / 180 with hθdef
  have hθabs : |θ| < Real.pi / 2 := by
    have h1 : |θ| = |lat| * Real.pi / 180 := by
      rw [hθdef, abs_div, abs_mul, abs_of_pos hpi]
      norm_num
    rw [h1]
    nlinarith [abs_nonneg lat]
  have hθIoo : θ ∈ Set.Ioo (-(Real.pi / 2)) (Real.pi / 2) := by
    rcases abs_lt.mp hθabs with ⟨h1, h2⟩
    exact ⟨h1, h2⟩
  have hc : 0 < Real.cos θ := Real.cos_pos_of_mem_Ioo hθIoo
  have hsin : |Real.sin θ| < 1 := by
    nlinarith [Real.sin_sq_add_cos_sq θ, abs_nonneg (Real.sin θ),
      sq_abs (Real.sin θ)]
  have hsin' : -1 < Real.sin θ ∧ Real.sin θ < 1 := abs_lt.mp hsin
  have hu : Real.tan θ + 1 / Real.cos θ = (Real.sin θ + 1) / Real.cos θ := by
    rw [Real.tan_eq_sin_div_cos, div_add_div_same]
  have hupos : 0 < Real.tan θ + 1 / Real.cos θ := by
    rw [hu]
    exact div_pos (by linarith [hsin'.1]) hc
  constructor
  · have harg : Real.pi * (1 - 2 * ((2:ℝ) ^ zoom *
        (1 - Real.log (Real.tan θ + 1 / Real.cos θ) / Real.pi) / 2) / (2:ℝ) ^ zoom)
        = Real.log (Real.tan θ + 1 / Real.cos θ) := by
      field_simp
      ring
    rw [harg]
    have hsinh : Real.sinh (Real.log (Real.tan θ + 1 / Real.cos θ))
        = Real.tan θ := by
      rw [Real.sinh_eq, Real.exp_neg, Real.exp_log hupos]
      rw [hu, Real.tan_eq_sin_div_cos, inv_div]
      have h1s : Real.sin θ + 1 ≠ 0 := by linarith [hsin'.1]
      field_simp
      nlinarith [Real.sin_sq_add_cos_sq θ]
    rw [hsinh, Real.arctan_tan hθIoo.1 hθIoo.2, hθdef]
    field_simp
  · field_simp
    ring

theorem tile_roundtrip (x y : ℝ) (zoom : ℕ) :
    latLngToPreciseTileXY (preciseTileXYToLatLng x y zoom).1
      (preciseTileXYToLatLng x y zoom).2 zoom = (x, y) := by
  have hn : (2:ℝ) ^ zoom ≠ 0 := by positivity
  have hpi : Real.pi ≠ 0 := Real.pi_ne_zero
  simp only [latLngToPreciseTileXY, preciseTileXYToLatLng, Prod.mk.injEq]
  set s : ℝ := Real.sinh (Real.pi * (1 - 2 * y / 2 ^ zoom)) with hs
  constructor
  · field_simp
    ring
  · have hθ : Real.arctan s * 180 / Real.pi * Real.pi / 180 = Real.arctan s := by
      field_simp
    rw [hθ, Real.tan_arctan, Real.cos_arctan, one_div_one_div]
    have harsinh : Real.log (s + Real.sqrt (1 + s ^ 2))
        = Real.pi * (1 - 2 * y / 2 ^ zoom) := by
      rw [show Real.log (s + Real.sqrt (1 + s ^ 2)) = Real.arsinh s from rfl, hs,
        Real.arsinh_sinh]
    rw [harsinh]
    field_simp
    ring

theorem pan_reproject (lat lng : ℝ) (zoom : ℕ) (k m : ℤ) :
    latLngToPreciseTileXY
        (handlePanEnd lat lng zoom ((k : ℝ) * TILE_SIZE) ((m : ℝ) * TILE_SIZE)).1
        (handlePanEnd lat lng zoom ((k : ℝ) * TILE_SIZE) ((m : ℝ) * TILE_SIZE)).2
        zoom
      = ((latLngToPreciseTileXY lat lng zoom).1 - (k : ℝ),
         (latLngToPreciseTileXY lat lng zoom).2 - (m : ℝ)) := by
  have hT : TILE_SIZE ≠ 0 := by norm_num [TILE_SIZE]
  by_cases h : (k : ℝ) * TILE_SIZE = 0 ∧ (m : ℝ) * TILE_SIZE = 0
  · have hk : (k : ℝ) = 0 := by
      rcases mul_eq_zero.mp h.1 with h' | h'
      · exact h'
      · exact absurd h' hT
    have hm : (m : ℝ) = 0 := by
      rcases mul_eq_zero.mp h.2 with h' | h'
      · exact h'
      · exact absurd h' hT
    rw [handlePanEnd, if_pos h, hk, hm]
    simp
  · rw [handlePanEnd, if_neg h]
    have h1 : (k : ℝ) * TILE_SIZE / TILE_SIZE = (k : ℝ) := by field_simp
    have h2 : (m : ℝ) * TILE_SIZE / TILE_SIZE = (m : ℝ) := by field_simp
    simp only [h1, h2]
    exact tile_roundtrip _ _ zoom

/-- The projection of the origin at zoom 1: an exactly tile-aligned center. -/
theorem proj_origin : latLngToPreciseTileXY 0 0 1 = (1, 1) := by
  norm_num [latLngToPreciseTileXY, Real.tan_zero, Real.cos_zero, Real.log_one]

/-! ### Claims -/

/-- Claim C1: for every center, zoom, and grid dimension N, the grid builder
returns offset = (viewportCenter - targetPixel) per axis, where
targetPixel = (fractionalCenter - topLeftTile) * TILE_SIZE and the viewport
center is ((VISIBLE_GRID_DIMENSION - 1) * TILE_SIZE * POSITIONING_FACTOR +
TILE_SIZE) / 2, computed from VISIBLE_GRID_DIMENSION, not from N. -/
theorem grid_offset_formula (lat lng : ℝ) (zoom N : ℕ) :
    (getTilesForArea lat lng zoom N).offset
      = ((((VISIBLE_GRID_DIMENSION : ℝ) - 1) * (TILE_SIZE * POSITIONING_FACTOR)
            + TILE_SIZE) / 2
          - ((latLngToPreciseTileXY lat lng zoom).1
              - ((tileStartX lat lng zoom N : ℤ) : ℝ)) * TILE_SIZE,
         (((VISIBLE_GRID_DIMENSION : ℝ) - 1) * (TILE_SIZE * POSITIONING_FACTOR)
            + TILE_SIZE) / 2
          - ((latLngToPreciseTileXY lat lng zoom).2
              - ((tileStartY lat lng zoom N : ℤ) : ℝ)) * TILE_SIZE) := rfl

/-- Claim C2: for every coordinate with |latitude| ≤ 85 degrees and every
valid zoom, the inverse projection composed with the forward projection
reproduces the coordinate within 1e-9 degrees on each component (in the real
model the round trip is exact). -/
theorem projection_roundtrip_tolerance (lat lng : ℝ) (zoom : ℕ)
    (hlat : |lat| ≤ 85) (_hz1 : MIN_ZOOM ≤ zoom) (_hz2 : zoom ≤ MAX_ZOOM) :
    |(preciseTileXYToLatLng (latLngToPreciseTileXY lat lng zoom).1
        (latLngToPreciseTileXY lat lng zoom).2 zoom).1 - lat| ≤ 1e-9
  ∧ |(preciseTileXYToLatLng (latLngToPreciseTileXY lat lng zoom).1
        (latLngToPreciseTileXY lat lng zoom).2 zoom).2 - lng| ≤ 1e-9 := by
  have h := latLng_roundtrip lat lng zoom hlat
  rw [h]
  norm_num

/-- Witness for C2 at the origin, zoom 1. -/
theorem projection_roundtrip_tolerance_witness :
    |(0:ℝ)| ≤ 85 ∧ MIN_ZOOM ≤ 1 ∧ 1 ≤ MAX_ZOOM ∧
    (|(preciseTileXYToLatLng (latLngToPreciseTileXY 0 0 1).1
        (latLngToPreciseTileXY 0 0 1).2 1).1 - 0| ≤ 1e-9
  ∧ |(preciseTileXYToLatLng (latLngToPreciseTileXY 0 0 1).1
        (latLngToPreciseTileXY 0 0 1).2 1).2 - 0| ≤ 1e-9) :=
  ⟨by norm_num, by decide, by decide,
    projection_roundtrip_tolerance 0 0 1 (by norm_num) (by decide) (by decide)⟩

/-- Claim C8: for every center, zoom, and grid dimension N, the grid builder
returns exactly N * N cells. -/
theorem grid_cell_count (lat lng : ℝ) (zoom N : ℕ) :
    (getTilesForArea lat lng zoom N).tiles.length = N * N := by
  rw [tiles_eq]
  simp

/-- Claim C9: a zero pixel delta is a no-op of the pan resolver: the input
coordinate is returned exactly. -/
theorem pan_zero_noop (lat lng : ℝ) (zoom : ℕ) :
    handlePanEnd lat lng zoom 0 0 = (lat, lng) := by
  rw [handlePanEnd, if_pos ⟨rfl, rfl⟩]

/-- Counterexample for C6: the operations do not signal invalid-argument
errors.  `getTilesForArea` with grid dimension 0 returns an empty cell list
(the degenerate result the claim forbids), and with zoom 23 (above MAX_ZOOM)
it silently returns a normal 25-cell grid. -/
theorem grid_invalid_inputs_accepted :
    (getTilesForArea 0 0 17 0).tiles = []
  ∧ (getTilesForArea 0 0 23 5).tiles.length = 25 := by
  constructor
  · simp [getTilesForArea]
  · rw [tiles_eq]
    simp

/-- Amended C6: the four core operations perform no precondition validation;
in particular `getTilesForArea` with a non-positive grid dimension silently
returns an empty cell list instead of failing. -/
theorem grid_zero_dimension_empty (lat lng : ℝ) (zoom : ℕ) :
    (getTilesForArea lat lng zoom 0).tiles = [] := by
  simp [getTilesForArea]

/-- Claim C7: for a center lying exactly on a tile boundary (zero fractional
part on both axes) and odd N, the offset equals viewportCenter minus the
pixel origin of the middle cell, `⌊N / 2⌋ * TILE_SIZE * POSITIONING_FACTOR`
per axis. -/
theorem boundary_center_offset (lat lng : ℝ) (zoom N : ℕ) (_hN : Odd N)
    (hx : Int.fract (latLngToPreciseTileXY lat lng zoom).1 = 0)
    (hy : Int.fract (latLngToPreciseTileXY lat lng zoom).2 = 0) :
    (getTilesForArea lat lng zoom N).offset
      = ((((VISIBLE_GRID_DIMENSION : ℝ) - 1) * (TILE_SIZE * POSITIONING_FACTOR)
            + TILE_SIZE) / 2
          - ((N / 2 : ℕ) : ℝ) * (TILE_SIZE * POSITIONING_FACTOR),
         (((VISIBLE_GRID_DIMENSION : ℝ) - 1) * (TILE_SIZE * POSITIONING_FACTOR)
            + TILE_SIZE) / 2
          - ((N / 2 : ℕ) : ℝ) * (TILE_SIZE * POSITIONING_FACTOR)) := by
  have hx' : ((⌊(latLngToPreciseTileXY lat lng zoom).1⌋ : ℤ) : ℝ)
      = (latLngToPreciseTileXY lat lng zoom).1 := by
    unfold Int.fract at hx
    linarith
  have hy' : ((⌊(latLngToPreciseTileXY lat lng zoom).2⌋ : ℤ) : ℝ)
      = (latLngToPreciseTileXY lat lng zoom).2 := by
    unfold Int.fract at hy
    linarith
  simp only [getTilesForArea, Prod.mk.injEq]
  constructor
  · push_cast
    rw [hx']
    norm_num [POSITIONING_FACTOR]
    left
    exact_mod_cast rfl
  · push_cast
    rw [hy']
    norm_num [POSITIONING_FACTOR]
    left
    exact_mod_cast rfl

/-- Witness for C7 at the origin, zoom 1 (tile coordinate exactly (1,1)),
N = 3. -/
theorem boundary_center_offset_witness :
    Odd 3 ∧ Int.fract (latLngToPreciseTileXY 0 0 1).1 = 0
  ∧ Int.fract (latLngToPreciseTileXY 0 0 1).2 = 0
  ∧ (getTilesForArea 0 0 1 3).offset
      = ((((VISIBLE_GRID_DIMENSION : ℝ) - 1) * (TILE_SIZE * POSITIONING_FACTOR)
            + TILE_SIZE) / 2
          - ((3 / 2 : ℕ) : ℝ) * (TILE_SIZE * POSITIONING_FACTOR),
         (((VISIBLE_GRID_DIMENSION : ℝ) - 1) * (TILE_SIZE * POSITIONING_FACTOR)
            + TILE_SIZE) / 2
          - ((3 / 2 : ℕ) : ℝ) * (TILE_SIZE * POSITIONING_FACTOR)) :=
  ⟨by decide, by rw [proj_origin]; norm_num [Int.fract],
    by rw [proj_origin]; norm_num [Int.fract],
    boundary_center_offset 0 0 1 3 (by decide)
      (by rw [proj_origin]; norm_num [Int.fract])
      (by rw [proj_origin]; norm_num [Int.fract])⟩

/-- Claim C3: the grid is anchored at the independently floored center tile,
its top-left tile index is (floor(centerX) - floor(N/2), floor(centerY) -
floor(N/2)), and cells are emitted in row-major order: the cell at list
position i * N + j has gridColumn j, gridRow i and tile index
(topLeft.x + j, topLeft.y + i). -/
theorem grid_rowmajor_cells (lat lng : ℝ) (zoom N i j : ℕ)
    (hi : i < N) (hj : j < N) :
    (getTilesForArea lat lng zoom N).tiles.get? (i * N + j)
      = some { tileX := tileStartX lat lng zoom N + (j : ℤ)
               tileY := tileStartY lat lng zoom N + (i : ℤ)
               gridX := j
               gridY := i
               key := toString zoom ++ "-"
                 ++ toString (tileStartX lat lng zoom N + (j : ℤ)) ++ "-"
                 ++ toString (tileStartY lat lng zoom N + (i : ℤ)) } := by
  have hN : 0 < N := by omega
  have hlt : i * N + j < N * N := by
    have h1 : (i + 1) * N = i * N + N := by ring
    have h2 : (i + 1) * N ≤ N * N := Nat.mul_le_mul_right N (by omega)
    omega
  rw [tiles_eq, List.get?_map, List.get?_range hlt]
  have heq : i * N + j = j + i * N := by ring
  have hdiv : (i * N + j) / N = i := by
    rw [heq, Nat.add_mul_div_right _ _ hN, Nat.div_eq_of_lt hj, Nat.zero_add]
  have hmod : (i * N + j) % N = j := by
    rw [heq, Nat.add_mul_mod_self_right, Nat.mod_eq_of_lt hj]
  simp only [Option.map_some']
  rw [hdiv, hmod]

/-- Witness for C3: the cell at row 1, column 2 of the 3 × 3 grid around the
origin at zoom 1. -/
theorem grid_rowmajor_cells_witness :
    (1 : ℕ) < 3 ∧ (2 : ℕ) < 3 ∧
    (getTilesForArea 0 0 1 3).tiles.get? (1 * 3 + 2)
      = some { tileX := tileStartX 0 0 1 3 + ((2 : ℕ) : ℤ)
               tileY := tileStartY 0 0 1 3 + ((1 : ℕ) : ℤ)
               gridX := 2
               gridY := 1
               key := toString (1 : ℕ) ++ "-"
                 ++ toString (tileStartX 0 0 1 3 + ((2 : ℕ) : ℤ)) ++ "-"
                 ++ toString (tileStartY 0 0 1 3 + ((1 : ℕ) : ℤ)) } :=
  ⟨by decide, by decide, grid_rowmajor_cells 0 0 1 3 1 2 (by decide) (by decide)⟩

/-- Claim C4: the pan resolver equals the inverse projection applied to the
forward-projected center shifted by -pixelDelta / TILE_SIZE per axis, and a
positive pixel delta strictly decreases the effective tile-x. -/
theorem pan_formula (lat lng panX panY : ℝ) (zoom : ℕ) (hlat : |lat| ≤ 85) :
    handlePanEnd lat lng zoom panX panY
        = preciseTileXYToLatLng
            ((latLngToPreciseTileXY lat lng zoom).1 - panX / TILE_SIZE)
            ((latLngToPreciseTileXY lat lng zoom).2 - panY / TILE_SIZE) zoom
      ∧ (0 < panX →
          (latLngToPreciseTileXY lat lng zoom).1 - panX / TILE_SIZE
            < (latLngToPreciseTileXY lat lng zoom).1) := by
  constructor
  · by_cases h : panX = 0 ∧ panY = 0
    · rw [handlePanEnd, if_pos h, h.1, h.2]
      simp only [zero_div, sub_zero]
      exact (latLng_roundtrip lat lng zoom hlat).symm
    · rw [handlePanEnd, if_neg h]
  · intro hp
    have h0 : 0 < panX / TILE_SIZE := div_pos hp (by norm_num [TILE_SIZE])
    linarith

/-- Witness for C4: a 256-pixel rightward drag from the origin at zoom 1. -/
theorem pan_formula_witness :
    |(0 : ℝ)| ≤ 85 ∧
    (handlePanEnd 0 0 1 256 0
        = preciseTileXYToLatLng
            ((latLngToPreciseTileXY 0 0 1).1 - 256 / TILE_SIZE)
            ((latLngToPreciseTileXY 0 0 1).2 - 0 / TILE_SIZE) 1
      ∧ (0 < (256 : ℝ) →
          (latLngToPreciseTileXY 0 0 1).1 - 256 / TILE_SIZE
            < (latLngToPreciseTileXY 0 0 1).1)) :=
  ⟨by norm_num, pan_formula 0 0 256 0 1 (by norm_num)⟩

/-- Claim C5: for a tile-aligned pixel delta (k * TILE_SIZE, m * TILE_SIZE),
panning and rebuilding the grid yields, position by position, the original
grid's tile indices shifted by (-k, -m). -/
theorem pan_grid_consistency (lat lng : ℝ) (zoom N : ℕ) (k m : ℤ)
    (_hN : Odd N) (idx : ℕ) :
    (((getTilesForArea
          (handlePanEnd lat lng zoom ((k : ℝ) * TILE_SIZE)
            ((m : ℝ) * TILE_SIZE)).1
          (handlePanEnd lat lng zoom ((k : ℝ) * TILE_SIZE)
            ((m : ℝ) * TILE_SIZE)).2
          zoom N).tiles.get? idx).map fun t => (t.tileX, t.tileY))
      = ((getTilesForArea lat lng zoom N).tiles.get? idx).map
          fun t => (t.tileX - k, t.tileY - m) := by
  have hre := pan_reproject lat lng zoom k m
  have hsx : tileStartX
        (handlePanEnd lat lng zoom ((k : ℝ) * TILE_SIZE) ((m : ℝ) * TILE_SIZE)).1
        (handlePanEnd lat lng zoom ((k : ℝ) * TILE_SIZE) ((m : ℝ) * TILE_SIZE)).2
        zoom N
      = tileStartX lat lng zoom N - k := by
    unfold tileStartX
    rw [hre]
    simp only [Int.floor_sub_int]
    ring
  have hsy : tileStartY
        (handlePanEnd lat lng zoom ((k : ℝ) * TILE_SIZE) ((m : ℝ) * TILE_SIZE)).1
        (handlePanEnd lat lng zoom ((k : ℝ) * TILE_SIZE) ((m : ℝ) * TILE_SIZE)).2
        zoom N
      = tileStartY lat lng zoom N - m := by
    unfold tileStartY
    rw [hre]
    simp only [Int.floor_sub_int]
    ring
  by_cases hidx : idx < N * N
  · rw [tiles_eq, tiles_eq, List.get?_map, List.get?_map,
      List.get?_range hidx]
    simp only [Option.map_some', Option.some.injEq, Prod.mk.injEq]
    rw [hsx, hsy]
    constructor <;> ring
  · have hge : N * N ≤ idx := by omega
    rw [tiles_eq, tiles_eq, List.get?_eq_none.mpr (by simpa using hge),
      List.get?_eq_none.mpr (by simpa using hge)]
    rfl

/-- Witness for C5: a one-tile rightward pan of the 3 × 3 grid at the origin,
zoom 1, inspected at list position 0. -/
theorem pan_grid_consistency_witness :
    Odd 3 ∧
    (((getTilesForArea
          (handlePanEnd 0 0 1 (((1 : ℤ) : ℝ) * TILE_SIZE)
            (((0 : ℤ) : ℝ) * TILE_SIZE)).1
          (handlePanEnd 0 0 1 (((1 : ℤ) : ℝ) * TILE_SIZE)
            (((0 : ℤ) : ℝ) * TILE_SIZE)).2
          1 3).tiles.get? 0).map fun t => (t.tileX, t.tileY))
      = ((getTilesForArea 0 0 1 3).tiles.get? 0).map
          fun t => (t.tileX - 1, t.tileY - 0) :=
  ⟨by decide, pan_grid_consistency 0 0 1 3 1 0 (by decide) 0⟩

/-- Claim C10: the cells of one grid carry pairwise distinct integer tile
indices and pairwise distinct keys: the position-to-tile mapping is
injective, so no tile appears twice. -/
theorem grid_cells_distinct (lat lng : ℝ) (zoom N : ℕ) :
    ((getTilesForArea lat lng zoom N).tiles).Pairwise
      fun a b => (a.tileX, a.tileY) ≠ (b.tileX, b.tileY) ∧ a.key ≠ b.key := by
  rw [tiles_eq, List.pairwise_map]
  refine (List.pairwise_lt_range (N * N)).imp ?_
  intro p q hpq
  have hne : p ≠ q := Nat.ne_of_lt hpq
  have hcontra : p % N = q % N → p / N = q / N → False := by
    intro hm hd
    exact hne (by rw [← Nat.div_add_mod p N, ← Nat.div_add_mod q N, hm, hd])
  constructor
  · intro hEq
    rw [Prod.mk.injEq] at hEq
    have hm : p % N = q % N := by
      have := add_left_cancel hEq.1
      exact_mod_cast this
    have hd : p / N = q / N := by
      have := add_left_cancel hEq.2
      exact_mod_cast this
    exact hcontra hm hd
  · intro hK
    obtain ⟨h1, h2⟩ := tileKey_inj hK
    have hm : p % N = q % N := by
      have := add_left_cancel h1
      exact_mod_cast this
    have hd : p / N = q / N := by
      have := add_left_cancel h2
      exact_mod_cast this
    exact hcontra hm hd
